import Mathlib

/-!
# Verification of the ATS Keyword Matcher scoring engine

Shallow embedding of the deterministic scoring core of `src/app.py`
(ATS Keyword Matcher): tokenizer, stop-word filter, keyword extractor,
scorer (`calculate_ats_score`), labeler (`get_score_label`) and the
text-analysis handler (`analyze_text`).

Modelling conventions:
* Python strings are modelled as `String`/`List Char`; the per-character
  operations (`str.lower`, `\w`, `[a-zA-Z]`, `str.strip`) are modelled with
  their ASCII semantics, which is what the spec's tokenizer contract
  ("ASCII alphabetic characters") is about.
* Python `set[str]` is modelled as `Finset String`.
* Python floats are modelled as exact rationals `ℚ`; `round(x, 2)` is
  modelled as round-half-to-even at two decimal places (`pyRound2`).
  Claims whose truth depends on the binary IEEE-754 representation rather
  than on the exact value are outside this embedding.
* `HTTPException` raised by the handler is modelled as `Except.error`.
-/

namespace ATS

/-! ## Tokenizer (the `re.findall(r'\b[a-zA-Z]{2,}\b', text.lower())` line)

`\b` is a word boundary: it matches between a word character
(`[a-zA-Z0-9_]` for ASCII text) and a non-word character or an end of the
text.  Hence the regex matches exactly the maximal runs of word characters
that consist solely of ASCII letters and have length ≥ 2: a shorter
alphabetic sub-run of a word run is never matched because the position
next to a digit or underscore is not a boundary. -/

/-- ASCII semantics of Python `str.lower` on one character. -/
def pyLower (c : Char) : Char :=
  if 'A' ≤ c ∧ c ≤ 'Z' then Char.ofNat (c.toNat + 32) else c

/-- ASCII alphabetic character, the `[a-zA-Z]` class of the regex. -/
def isAsciiAlpha (c : Char) : Bool :=
  ('a' ≤ c && c ≤ 'z') || ('A' ≤ c && c ≤ 'Z')

/-- Word character for the `\b` boundary of the regex: `[a-zA-Z0-9_]`. -/
def isWordChar (c : Char) : Bool :=
  isAsciiAlpha c || ('0' ≤ c && c ≤ '9') || c = '_'

/-- Accumulator-based computation of the maximal runs of characters
satisfying `p`; `cur` is the reversed run currently being read. -/
def runsAux (p : Char → Bool) (cur : List Char) : List Char → List (List Char)
  | [] => if cur = [] then [] else [cur.reverse]
  | c :: cs =>
    if p c then runsAux p (c :: cur) cs
    else if cur = [] then runsAux p [] cs
    else cur.reverse :: runsAux p [] cs

/-- The maximal runs of characters satisfying `p` in a character list. -/
def runs (p : Char → Bool) (l : List Char) : List (List Char) :=
  runsAux p [] l

/-- The token sequence produced by
`re.findall(r'\b[a-zA-Z]{2,}\b', text.lower())`: lower-case the text,
then keep the maximal word-character runs that are entirely alphabetic
and have length at least 2. -/
def tokenize (text : List Char) : List (List Char) :=
  (runs isWordChar (text.map pyLower)).filter
    (fun w => decide (2 ≤ w.length) && w.all isAsciiAlpha)

/-! ## Stop words and keyword extraction -/

/-- The stop-word vocabulary of `extract_keywords` in `src/app.py`,
transcribed verbatim (the Python `set` literal; one word occurs twice in
the source literal, which is immaterial for membership). -/
def stop_words : List String :=
  ["a", "an", "the", "i", "me", "my", "myself", "we",
    "our", "ours", "ourselves", "you", "your", "yours", "yourself", "yourselves",
    "he", "him", "his", "himself", "she", "her", "hers", "herself",
    "it", "its", "itself", "they", "them", "their", "theirs", "themselves",
    "what", "which", "who", "whom", "this", "that", "these", "those",
    "am", "is", "are", "was", "were", "be", "been", "being",
    "have", "has", "had", "having", "do", "does", "did", "doing",
    "and", "but", "if", "or", "because", "as", "until", "while",
    "of", "at", "by", "for", "with", "about", "against", "between",
    "into", "through", "during", "before", "after", "above", "below", "to",
    "from", "up", "down", "in", "out", "on", "off", "over",
    "under", "again", "further", "then", "once", "here", "there", "when",
    "where", "why", "how", "all", "each", "few", "more", "most",
    "other", "some", "such", "no", "nor", "not", "only", "own",
    "same", "so", "than", "too", "very", "just", "can", "will",
    "don", "should", "now", "any", "both", "every", "get", "got",
    "getting", "make", "made", "making", "go", "going", "went", "gone",
    "come", "came", "coming", "take", "took", "taken", "see", "saw",
    "seen", "know", "knew", "known", "think", "thought", "want", "wanted",
    "give", "gave", "given", "tell", "told", "ask", "asked", "seem",
    "seemed", "leave", "left", "put", "keep", "kept", "let", "begin",
    "began", "show", "showed", "shown", "hear", "heard", "move", "moved",
    "like", "liked", "live", "lived", "believe", "believed", "hold", "held",
    "bring", "brought", "happen", "happened", "must", "shall", "would", "could",
    "might", "may", "good", "great", "best", "better", "new", "first",
    "last", "long", "little", "old", "right", "big", "high", "different",
    "small", "large", "next", "early", "young", "important", "public", "bad",
    "able", "free", "sure", "clear", "full", "special", "easy", "ready",
    "possible", "open", "late", "hard", "real", "whole", "least", "short",
    "certain", "low", "likely", "true", "available", "necessary", "several", "recent",
    "current", "particular", "fine", "simple", "strong", "various", "additional", "major",
    "local", "general", "fast", "paced", "highly", "exceptional", "brilliant", "solid",
    "appropriate", "desirable", "time", "year", "years", "people", "way", "day",
    "days", "man", "men", "woman", "women", "child", "children", "world",
    "life", "hand", "hands", "part", "parts", "place", "places", "case",
    "cases", "week", "weeks", "point", "points", "thing", "things", "home",
    "fact", "facts", "month", "months", "lot", "book", "eye", "eyes",
    "job", "word", "words", "side", "sides", "kind", "head", "house",
    "friend", "friends", "hour", "hours", "line", "lines", "end", "member",
    "members", "area", "areas", "money", "story", "stories", "state", "city",
    "name", "family", "room", "country", "question", "questions", "idea", "ideas",
    "number", "numbers", "position", "candidate", "candidates", "role", "responsibilities", "requirements",
    "qualifications", "opportunity", "opportunities", "looking", "seeking", "join", "joining", "offer",
    "offers", "offering", "apply", "applying", "resume", "cover", "letter", "salary",
    "benefits", "bonus", "vacation", "insurance", "retirement", "flexible", "remote", "hybrid",
    "onsite", "office", "location", "located", "based", "working", "work", "environment",
    "culture", "employer", "employment", "employee", "employees", "staff", "hire", "hiring",
    "hired", "start", "starting", "date", "deadline", "submit", "submitted", "please",
    "thank", "thanks", "note", "notes", "email", "phone", "contact", "website",
    "click", "link", "info", "information", "details", "description", "overview", "summary",
    "include", "includes", "including", "require", "requires", "required", "prefer", "prefers",
    "preferred", "plus", "ideal", "ideally", "minimum", "maximum", "need", "needs",
    "needed", "expect", "expected", "breakfast", "lunch", "dinner", "snacks", "food",
    "meals", "drinks", "coffee", "tea", "cafeteria", "kitchen", "kitchens", "gym",
    "fitness", "wellness", "parking", "commute", "cab", "cabs", "transport", "shuttle",
    "cubicle", "cubicles", "desk", "desks", "jeans", "casual", "dress", "attire",
    "friday", "fridays", "rewards", "perks", "premium", "facility", "facilities", "amenities",
    "lounge", "recreation", "events", "party", "parties", "celebration", "outing", "trip",
    "trips", "india", "usa", "america", "europe", "asia", "africa", "australia",
    "canada", "china", "japan", "germany", "france", "singapore", "dubai", "london",
    "paris", "tokyo", "sydney", "mumbai", "delhi", "bangalore", "hyderabad", "chennai",
    "pune", "kolkata", "gurgaon", "noida", "york", "san", "francisco", "seattle",
    "boston", "chicago", "austin", "denver", "atlanta", "miami", "dallas", "houston",
    "phoenix", "street", "wall", "tower", "towers", "building", "buildings", "floor",
    "floors", "campus", "park", "center", "centre", "plaza", "avenue", "road",
    "boulevard", "lane", "drive", "llc", "inc", "corp", "ltd", "pvt",
    "daily", "weekly", "monthly", "annually", "yearly", "hourly", "per", "percent",
    "percentage", "approximately", "multiple", "also", "well", "however", "therefore", "thus",
    "hence", "although", "though", "still", "yet", "already", "even", "ever",
    "never", "always", "often", "sometimes", "usually", "generally", "typically", "especially",
    "specifically", "particularly", "mainly", "mostly", "primarily", "largely", "simply", "directly",
    "currently", "recently", "alongside", "ability", "abilities", "skill", "skills", "knowledge",
    "proficiency", "proficient", "familiar", "familiarity", "understanding", "background", "equivalent", "related",
    "relevant", "field", "fields", "immigration", "ethnicity", "race", "racial", "gender",
    "sex", "sexual", "orientation", "identity", "marital", "status", "religion", "religious",
    "ancestry", "national", "origin", "nationality", "citizenship", "citizen", "veteran", "veterans",
    "military", "disability", "disabilities", "pregnancy", "genetic", "genetics", "age", "aged",
    "protected", "discrimination", "affiliation", "political", "ordinances", "laws", "law", "affirmative",
    "action", "eeo", "eeoc", "expression", "creed", "color", "values", "value",
    "mission", "vision", "purpose", "integrity", "honesty", "respect", "accountability", "transparency",
    "excellence", "passion", "passionate", "passions", "excitement", "excited", "exciting", "thrive",
    "thriving", "empower", "empowered", "inspire", "inspired", "innovative", "innovate", "creativity",
    "creative", "curiosity", "curious", "mindset", "attitude", "positive", "fun", "enjoy",
    "journey", "growth", "grow", "talent", "talented", "potential", "aspirations", "achieve",
    "achieving", "succeed", "success", "successful", "winning", "reward", "rewarding", "meaningful",
    "impact", "impactful", "difference", "community", "belong", "belonging", "together", "shared",
    "care", "caring", "support", "supporting", "trust", "everyone", "everybody", "anyone",
    "someone", "person", "persons", "individual", "individuals", "human", "internship", "internships",
    "intern", "interns", "program", "programs", "semester", "semesters", "term", "terms",
    "rotation", "rotational", "cohort", "batch", "completion", "completing", "complete", "ongoing",
    "duration", "period", "temporary", "permanent", "apprentice", "trainee", "mentee", "mentor",
    "mentoring", "mentorship", "guidance", "guide", "coach", "coaching", "buddy", "provide",
    "provides", "providing", "enable", "enables", "enabling", "allow", "allows", "allowing",
    "help", "helps", "helping", "assist", "assists", "assisting", "assistance", "ensure",
    "ensures", "ensuring", "demonstrate", "demonstrates", "leverage", "leverages", "leveraging", "utilize",
    "utilizes", "utilizing", "explore", "explores", "exploring", "pursue", "pursues", "pursuing",
    "seek", "seeks", "seeking", "adopt", "adopts", "adopting", "embrace", "embraces",
    "embracing", "receive", "receives", "receiving", "accept", "accepts", "accepting", "consider",
    "considers", "considering", "consideration", "read", "reads", "improve", "improves", "improving",
    "advance", "advances", "advancing", "proactively", "proactive", "quickly", "rapidly", "efficiently",
    "effectively", "collaborate", "collaborates", "collaborating", "cooperate", "cooperates", "cooperative", "coordinate",
    "coordinates", "learns", "learn", "learning", "learned", "customers", "customer", "clients",
    "client", "users", "user", "products", "product", "services", "service", "solutions",
    "solution", "projects", "project", "initiatives", "initiative", "efforts", "effort", "goals",
    "goal", "objectives", "objective", "targets", "target", "results", "result", "outcomes",
    "outcome", "deliverables", "deliverable", "operations", "operation", "practices", "practice", "methods",
    "method", "approaches", "approach", "strategies", "strategy", "plans", "plan", "developments",
    "development", "resources", "resource", "materials", "documents", "document", "principles", "principle",
    "fundamentals", "concepts", "concept", "standards", "standard", "guidelines", "guideline", "policies",
    "policy", "procedures", "procedure", "corner", "corners", "planet", "globe", "worldwide",
    "internal", "external", "chance", "ahead", "forward", "future", "career", "careers",
    "path", "paths", "teammates", "teammate", "colleagues", "colleague", "peers", "peer",
    "managers", "manager", "supervisors", "supervisor", "directors", "executives", "executive", "leaders",
    "applicants", "applicant", "qualified", "qualify", "eligible", "eligibility", "availability", "accommodate",
    "accommodation", "accommodations", "reasonable", "applicable", "physical", "mental", "emotional", "condition",
    "conditions", "filled", "fill", "remaining", "remain", "due", "regard", "regards",
    "driving", "driven", "incorporates", "incorporate", "realize", "realizes", "thousands", "hundreds",
    "millions", "billions", "microsoft", "google", "amazon", "apple", "meta", "facebook",
    "netflix", "uber", "lyft", "airbnb", "salesforce", "oracle", "ibm", "intel",
    "nvidia", "amd", "cisco", "vmware", "adobe", "spotify"]

/-- Keyword extraction: tokenize, drop stop words, deduplicate into a set
(`{word for word in words if word not in stop_words}`). -/
def extract_keywords (text : String) : Finset String :=
  (((tokenize text.data).map (fun w => String.mk w)).filter
    (fun w => !(stop_words.contains w))).toFinset

/-! ## Scorer -/

/-- Round a rational to the nearest integer, ties to the even integer. -/
def roundHalfEven (q : ℚ) : ℤ :=
  if q - ⌊q⌋ = 1 / 2 then (if Even ⌊q⌋ then ⌊q⌋ else ⌊q⌋ + 1) else round q

/-- Model of Python `round(x, 2)`: round-half-to-even at two decimals. -/
def pyRound2 (q : ℚ) : ℚ :=
  (roundHalfEven (q * 100) : ℚ) / 100

/-- The dictionary returned by `calculate_ats_score`. -/
structure MatchResult where
  score : ℚ
  matched : Finset String
  missing : Finset String
  deriving DecidableEq

/-- Model of `calculate_ats_score` from `src/app.py`. -/
def calculate_ats_score (resume_keywords jd_keywords : Finset String) :
    MatchResult :=
  if jd_keywords = ∅ then
    { score := 0, matched := ∅, missing := ∅ }
  else
    let matched := resume_keywords ∩ jd_keywords
    let missing := jd_keywords \ resume_keywords
    let score := ((matched.card : ℚ) / (jd_keywords.card : ℚ)) * 100
    { score := pyRound2 score, matched := matched, missing := missing }

/-- Model of `get_score_label` from `src/app.py`. -/
def get_score_label (score : ℚ) : String :=
  if score ≥ 80 then "Excellent Match"
  else if score ≥ 60 then "Good Match"
  else if score ≥ 40 then "Fair Match"
  else if score ≥ 20 then "Needs Improvement"
  else "Poor Match"

/-! ## The text-analysis handler `analyze_text` -/

/-- ASCII semantics of the whitespace class stripped by Python `str.strip`. -/
def pyIsSpace (c : Char) : Bool :=
  c = ' ' || c = '\t' || c = '\n' || c = '\x0b' || c = '\x0c' || c = '\r'

/-- Model of Python `str.strip()`: remove leading and trailing whitespace. -/
def pyStrip (l : List Char) : List Char :=
  ((l.dropWhile pyIsSpace).reverse.dropWhile pyIsSpace).reverse

/-- The `AnalysisResult` response model of `src/app.py`. -/
structure AnalysisResult where
  score : ℚ
  score_label : String
  matched_keywords : List String
  missing_keywords : List String
  total_jd_keywords : ℕ
  total_matched : ℕ
  deriving DecidableEq

/-- Byte-wise (code-point) lexicographic comparison of character lists,
the order Python `sorted` uses on strings. -/
def pyStrLe : List Char → List Char → Bool
  | [], _ => true
  | _ :: _, [] => false
  | c :: cs, d :: ds =>
    if c.toNat < d.toNat then true
    else if d.toNat < c.toNat then false
    else pyStrLe cs ds

/-- The lexicographic order on strings by code point, as a relation. -/
def strLe (s t : String) : Prop :=
  pyStrLe s.data t.data = true

instance : DecidableRel strLe :=
  fun s t => inferInstanceAs (Decidable (pyStrLe s.data t.data = true))

theorem pyStrLe_total : ∀ a b : List Char, pyStrLe a b = true ∨ pyStrLe b a = true
  | [], _ => Or.inl (by simp [pyStrLe])
  | _ :: _, [] => Or.inr (by simp [pyStrLe])
  | c :: cs, d :: ds => by
    by_cases h1 : c.toNat < d.toNat
    · exact Or.inl (by simp [pyStrLe, h1])
    · by_cases h2 : d.toNat < c.toNat
      · exact Or.inr (by simp [pyStrLe, h2])
      · rcases pyStrLe_total cs ds with h | h
        · exact Or.inl (by simp [pyStrLe, h1, h2, h])
        · exact Or.inr (by simp [pyStrLe, h1, h2, h])

theorem pyStrLe_trans :
    ∀ a b c : List Char,
      pyStrLe a b = true → pyStrLe b c = true → pyStrLe a c = true
  | [], _, _, _, _ => by simp [pyStrLe]
  | _ :: _, [], _, h1, _ => by simp [pyStrLe] at h1
  | _ :: _, _ :: _, [], _, h2 => by simp [pyStrLe] at h2
  | x :: xs, y :: ys, z :: zs, h1, h2 => by
    simp only [pyStrLe] at h1 h2 ⊢
    split_ifs at h1 h2 ⊢ <;>
      first
        | rfl
        | exact absurd h1 (fun hh => Bool.noConfusion hh)
        | exact absurd h2 (fun hh => Bool.noConfusion hh)
        | exact pyStrLe_trans xs ys zs h1 h2
        | (exfalso; omega)

theorem pyStrLe_antisymm :
    ∀ a b : List Char, pyStrLe a b = true → pyStrLe b a = true → a = b
  | [], [], _, _ => rfl
  | [], _ :: _, _, h2 => by simp [pyStrLe] at h2
  | _ :: _, [], h1, _ => by simp [pyStrLe] at h1
  | x :: xs, y :: ys, h1, h2 => by
    simp only [pyStrLe] at h1 h2
    split_ifs at h1 h2 <;>
      first
        | exact absurd h1 (fun hh => Bool.noConfusion hh)
        | exact absurd h2 (fun hh => Bool.noConfusion hh)
        | (exfalso; omega)
        | (have hn : x.toNat = y.toNat := by omega
           have hxy : x = y := by
             have := congrArg Char.ofNat hn
             rwa [Char.ofNat_toNat, Char.ofNat_toNat] at this
           rw [hxy, pyStrLe_antisymm xs ys h1 h2])

instance : IsTotal String strLe :=
  ⟨fun a b => pyStrLe_total a.data b.data⟩

instance : IsTrans String strLe :=
  ⟨fun a b c => pyStrLe_trans a.data b.data c.data⟩

instance : IsAntisymm String strLe :=
  ⟨fun a b h1 h2 => by
    cases a with
    | mk da =>
      cases b with
      | mk db =>
        have : da = db := pyStrLe_antisymm da db h1 h2
        rw [this]⟩

/-- Model of Python `sorted(list(s))` for a set of strings: the unique
enumeration of the set sorted by the lexicographic order on strings
(Python compares strings lexicographically by code point, as does the
`String` linear order used here). -/
def msort (m : Multiset String) : List String :=
  Quot.liftOn m (fun l => l.insertionSort strLe)
    (fun _ _ h =>
      List.eq_of_perm_of_sorted
        ((List.perm_insertionSort _ _).trans
          (h.trans (List.perm_insertionSort _ _).symm))
        (List.sorted_insertionSort _ _) (List.sorted_insertionSort _ _))

/-- Model of Python `sorted(list(s))` for a set of strings. -/
def sortedList (s : Finset String) : List String :=
  msort s.val

/-- Model of the `POST /analyze/text` handler `analyze_text` of
`src/app.py`: validate that neither input is empty after stripping,
extract keywords from both texts, score, and build the response;
an `HTTPException` is modelled as `Except.error` with its detail string. -/
def analyze_text (resume_text job_description : String) :
    Except String AnalysisResult :=
  if pyStrip resume_text.data = [] then
    .error "Resume text cannot be empty"
  else if pyStrip job_description.data = [] then
    .error "Job description cannot be empty"
  else
    let resume_keywords := extract_keywords resume_text
    let jd_keywords := extract_keywords job_description
    let result := calculate_ats_score resume_keywords jd_keywords
    .ok
      { score := result.score
        score_label := get_score_label result.score
        matched_keywords := (sortedList result.matched).take 50
        missing_keywords := (sortedList result.missing).take 30
        total_jd_keywords := jd_keywords.card
        total_matched := result.matched.card }

/-! ## Properties of the half-even rounding -/

theorem roundHalfEven_intCast (n : ℤ) : roundHalfEven (n : ℚ) = n := by
  unfold roundHalfEven
  rw [Int.floor_intCast]
  norm_num

theorem floor_le_roundHalfEven (q : ℚ) : ⌊q⌋ ≤ roundHalfEven q := by
  unfold roundHalfEven
  split_ifs with h he
  · exact le_refl _
  · exact le_of_lt (lt_add_one _)
  · rw [round_eq]
    exact Int.floor_le_floor (by linarith)

theorem roundHalfEven_le_floor_add_one (q : ℚ) : roundHalfEven q ≤ ⌊q⌋ + 1 := by
  unfold roundHalfEven
  split_ifs with h he
  · exact le_of_lt (lt_add_one _)
  · exact le_refl _
  · rw [round_eq]
    have h2 : q + 1 / 2 < ((⌊q⌋ + 2 : ℤ) : ℚ) := by
      have := Int.lt_floor_add_one q
      push_cast
      linarith
    have := Int.floor_lt.mpr h2
    omega

theorem roundHalfEven_le_of_le {q : ℚ} {n : ℤ} (h : q ≤ (n : ℚ)) :
    roundHalfEven q ≤ n := by
  rcases eq_or_lt_of_le h with heq | hlt
  · rw [heq, roundHalfEven_intCast]
  · have h1 : ⌊q⌋ < n := Int.floor_lt.mpr hlt
    exact (roundHalfEven_le_floor_add_one q).trans (by omega)

theorem le_roundHalfEven_of_le {q : ℚ} {n : ℤ} (h : (n : ℚ) ≤ q) :
    n ≤ roundHalfEven q :=
  le_trans (Int.le_floor.mpr h) (floor_le_roundHalfEven q)

theorem roundHalfEven_le_add_half (q : ℚ) : (roundHalfEven q : ℚ) ≤ q + 1 / 2 := by
  unfold roundHalfEven
  split_ifs with h he
  · have : (⌊q⌋ : ℚ) = q - 1 / 2 := by linarith
    linarith
  · have : (⌊q⌋ : ℚ) = q - 1 / 2 := by linarith
    push_cast
    linarith
  · rw [round_eq]
    have := Int.floor_le (q + 1 / 2)
    linarith

theorem sub_half_le_roundHalfEven (q : ℚ) : q - 1 / 2 ≤ (roundHalfEven q : ℚ) := by
  unfold roundHalfEven
  split_ifs with h he
  · have : (⌊q⌋ : ℚ) = q - 1 / 2 := by linarith
    linarith
  · have : (⌊q⌋ : ℚ) = q - 1 / 2 := by linarith
    push_cast
    linarith
  · rw [round_eq]
    have := Int.lt_floor_add_one (q + 1 / 2)
    linarith

theorem roundHalfEven_mono {x y : ℚ} (h : x ≤ y) :
    roundHalfEven x ≤ roundHalfEven y := by
  by_contra hc
  push_neg at hc
  have h1 : roundHalfEven y + 1 ≤ roundHalfEven x := hc
  have h2 : (roundHalfEven x : ℚ) ≤ x + 1 / 2 := roundHalfEven_le_add_half x
  have h3 : y - 1 / 2 ≤ (roundHalfEven y : ℚ) := sub_half_le_roundHalfEven y
  have h4 : ((roundHalfEven y : ℚ) + 1) ≤ (roundHalfEven x : ℚ) := by exact_mod_cast h1
  have hxy : y ≤ x := by linarith
  have : x = y := le_antisymm h hxy
  rw [this] at hc
  exact absurd hc (lt_irrefl _)

theorem pyRound2_nonneg {q : ℚ} (h : 0 ≤ q) : 0 ≤ pyRound2 q := by
  unfold pyRound2
  have : (0 : ℤ) ≤ roundHalfEven (q * 100) :=
    le_roundHalfEven_of_le (by push_cast; linarith)
  positivity

theorem pyRound2_le_hundred {q : ℚ} (h : q ≤ 100) : pyRound2 q ≤ 100 := by
  unfold pyRound2
  have : roundHalfEven (q * 100) ≤ (10000 : ℤ) :=
    roundHalfEven_le_of_le (by push_cast; linarith)
  have hc : (roundHalfEven (q * 100) : ℚ) ≤ 10000 := by exact_mod_cast this
  linarith

theorem pyRound2_mono {x y : ℚ} (h : x ≤ y) : pyRound2 x ≤ pyRound2 y := by
  unfold pyRound2
  have := roundHalfEven_mono (mul_le_mul_of_nonneg_right h (by norm_num : (0:ℚ) ≤ 100))
  have hc : (roundHalfEven (x * 100) : ℚ) ≤ (roundHalfEven (y * 100) : ℚ) := by
    exact_mod_cast this
  linarith

/-! ## Claim theorems: scorer invariants and labeler -/

/-- C1: for every pair of keyword sets, the Match Result returned by
`calculate_ats_score` satisfies `matched ∪ missing = jd_keywords` and
`matched ∩ missing = ∅`. -/
theorem calculate_ats_score_set_algebra (r j : Finset String) :
    (calculate_ats_score r j).matched ∪ (calculate_ats_score r j).missing = j ∧
    (calculate_ats_score r j).matched ∩ (calculate_ats_score r j).missing = ∅ := by
  unfold calculate_ats_score
  by_cases h : j = ∅
  · simp [h]
  · simp only [if_neg h]
    constructor
    · ext x
      simp only [Finset.mem_union, Finset.mem_inter, Finset.mem_sdiff]
      tauto
    · ext x
      simp only [Finset.mem_inter, Finset.mem_sdiff, Finset.not_mem_empty, iff_false]
      tauto

/-- C3: for every resume keyword set, scoring against an empty
job-description keyword set returns score 0, `matched = ∅`, `missing = ∅`
(the division by the keyword count is never reached; the function is
total). -/
theorem calculate_ats_score_empty_jd (r : Finset String) :
    calculate_ats_score r ∅ = { score := 0, matched := ∅, missing := ∅ } := by
  simp [calculate_ats_score]

/-- C4: on `[0, 100]`, `get_score_label` returns each label exactly on its
band, inclusive at the lower bounds 80, 60, 40, 20. -/
theorem get_score_label_bands (q : ℚ) (h0 : 0 ≤ q) (h1 : q ≤ 100) :
    (get_score_label q = "Excellent Match" ↔ 80 ≤ q) ∧
    (get_score_label q = "Good Match" ↔ 60 ≤ q ∧ q < 80) ∧
    (get_score_label q = "Fair Match" ↔ 40 ≤ q ∧ q < 60) ∧
    (get_score_label q = "Needs Improvement" ↔ 20 ≤ q ∧ q < 40) ∧
    (get_score_label q = "Poor Match" ↔ q < 20) := by
  unfold get_score_label
  split_ifs with h80 h60 h40 h20
  · refine ⟨iff_of_true rfl (by linarith), ?_, ?_, ?_, ?_⟩
    · exact iff_of_false (by decide) (fun hc => by linarith [hc.2])
    · exact iff_of_false (by decide) (fun hc => by linarith [hc.2])
    · exact iff_of_false (by decide) (fun hc => by linarith [hc.2])
    · exact iff_of_false (by decide) (fun hc => by linarith)
  · refine ⟨iff_of_false (by decide) (fun hc => by linarith),
      iff_of_true rfl ⟨by linarith, by linarith⟩, ?_, ?_, ?_⟩
    · exact iff_of_false (by decide) (fun hc => by linarith [hc.2])
    · exact iff_of_false (by decide) (fun hc => by linarith [hc.2])
    · exact iff_of_false (by decide) (fun hc => by linarith)
  · refine ⟨iff_of_false (by decide) (fun hc => by linarith),
      iff_of_false (by decide) (fun hc => by linarith [hc.1]),
      iff_of_true rfl ⟨by linarith, by linarith⟩, ?_, ?_⟩
    · exact iff_of_false (by decide) (fun hc => by linarith [hc.2])
    · exact iff_of_false (by decide) (fun hc => by linarith)
  · refine ⟨iff_of_false (by decide) (fun hc => by linarith),
      iff_of_false (by decide) (fun hc => by linarith [hc.1]),
      iff_of_false (by decide) (fun hc => by linarith [hc.1]),
      iff_of_true rfl ⟨by linarith, by linarith⟩,
      iff_of_false (by decide) (fun hc => by linarith)⟩
  · refine ⟨iff_of_false (by decide) (fun hc => by linarith),
      iff_of_false (by decide) (fun hc => by linarith [hc.1]),
      iff_of_false (by decide) (fun hc => by linarith [hc.1]),
      iff_of_false (by decide) (fun hc => by linarith [hc.1]),
      iff_of_true rfl (by linarith)⟩

/-- C4 witness: the bands hold at the concrete boundary score 80. -/
theorem get_score_label_bands_witness :
    ((0 : ℚ) ≤ 80 ∧ (80 : ℚ) ≤ 100) ∧
    (get_score_label 80 = "Excellent Match" ↔ 80 ≤ (80 : ℚ)) :=
  ⟨⟨by norm_num, by norm_num⟩,
    (get_score_label_bands 80 (by norm_num) (by norm_num)).1⟩

/-- C9: `get_score_label` is total over all rational scores: every score
below 20 (including negative ones) is labelled "Poor Match" and every
score at or above 80 (including scores above 100) is labelled
"Excellent Match". -/
theorem get_score_label_total (q : ℚ) :
    (q < 20 → get_score_label q = "Poor Match") ∧
    (80 ≤ q → get_score_label q = "Excellent Match") := by
  unfold get_score_label
  split_ifs with h80 h60 h40 h20
  · exact ⟨fun h => by linarith, fun _ => rfl⟩
  · exact ⟨fun h => by linarith, fun h => by exact absurd h h80⟩
  · exact ⟨fun h => by linarith, fun h => by exact absurd h h80⟩
  · exact ⟨fun h => by linarith, fun h => by exact absurd h h80⟩
  · exact ⟨fun _ => rfl, fun h => by exact absurd h h80⟩

/-- C9 witness: the labels at the out-of-range scores -5 and 101. -/
theorem get_score_label_total_witness :
    ((-5 : ℚ) < 20 ∧ get_score_label (-5) = "Poor Match") ∧
    ((80 : ℚ) ≤ 101 ∧ get_score_label 101 = "Excellent Match") :=
  ⟨⟨by norm_num, (get_score_label_total (-5)).1 (by norm_num)⟩,
    ⟨by norm_num, (get_score_label_total 101).2 (by norm_num)⟩⟩

/-- C6: for every pair of keyword sets, the score returned by
`calculate_ats_score` lies in `[0, 100]`. -/
theorem calculate_ats_score_bounds (r j : Finset String) :
    0 ≤ (calculate_ats_score r j).score ∧ (calculate_ats_score r j).score ≤ 100 := by
  unfold calculate_ats_score
  by_cases h : j = ∅
  · simp [h]
  · simp only [if_neg h]
    have hn : 0 < (j.card : ℚ) := by
      have : 0 < j.card := Finset.card_pos.mpr (Finset.nonempty_iff_ne_empty.mpr h)
      exact_mod_cast this
    have hm : ((r ∩ j).card : ℚ) ≤ (j.card : ℚ) := by
      exact_mod_cast Finset.card_le_card (Finset.inter_subset_right)
    have hm0 : (0 : ℚ) ≤ ((r ∩ j).card : ℚ) := by positivity
    have hle : ((r ∩ j).card : ℚ) / (j.card : ℚ) * 100 ≤ 100 := by
      have hdiv : ((r ∩ j).card : ℚ) / (j.card : ℚ) ≤ 1 := by
        rw [div_le_one hn]
        exact hm
      linarith
    have hge : 0 ≤ ((r ∩ j).card : ℚ) / (j.card : ℚ) * 100 := by positivity
    exact ⟨pyRound2_nonneg hge, pyRound2_le_hundred hle⟩

/-- C10: with the job-description keyword set fixed and non-empty, the
score is monotone in the resume keyword set. -/
theorem calculate_ats_score_mono {A B : Finset String} (j : Finset String)
    (hAB : A ⊆ B) (hj : j ≠ ∅) :
    (calculate_ats_score A j).score ≤ (calculate_ats_score B j).score := by
  unfold calculate_ats_score
  simp only [if_neg hj]
  apply pyRound2_mono
  have hn : 0 < (j.card : ℚ) := by
    have : 0 < j.card := Finset.card_pos.mpr (Finset.nonempty_iff_ne_empty.mpr hj)
    exact_mod_cast this
  have hcard : ((A ∩ j).card : ℚ) ≤ ((B ∩ j).card : ℚ) := by
    exact_mod_cast Finset.card_le_card
      (Finset.inter_subset_inter hAB (Finset.Subset.refl j))
  gcongr

/-- C10 witness: monotonicity at concrete keyword sets. -/
theorem calculate_ats_score_mono_witness :
    (({"python"} : Finset String) ⊆ {"python", "java"}) ∧
    (({"python", "java", "docker"} : Finset String) ≠ ∅) ∧
    (calculate_ats_score {"python"} {"python", "java", "docker"}).score ≤
      (calculate_ats_score {"python", "java"} {"python", "java", "docker"}).score :=
  ⟨by decide, by decide,
    calculate_ats_score_mono _ (by decide) (by decide)⟩

/-! ## Characterization of the tokenizer -/

/-- The last character of `l`, if any, is not a `p`-character
(a word-boundary condition on the left context of a match). -/
def LastNot (p : Char → Bool) (l : List Char) : Prop :=
  ∀ c, l.getLast? = some c → p c = false

/-- The first character of `l`, if any, is not a `p`-character
(a word-boundary condition on the right context of a match). -/
def HeadNot (p : Char → Bool) (l : List Char) : Prop :=
  ∀ c, l.head? = some c → p c = false

/-- The word `w` is one of the maximal runs of `p`-characters of `l`:
it is a non-empty block of `p`-characters delimited on both sides by an
end of the text or a non-`p`-character. -/
def MaxRun (p : Char → Bool) (l w : List Char) : Prop :=
  w ≠ [] ∧ (∀ c ∈ w, p c = true) ∧
  ∃ pre post, l = pre ++ w ++ post ∧ LastNot p pre ∧ HeadNot p post

theorem headNot_dropWhile (p : Char → Bool) (l : List Char) :
    HeadNot p (l.dropWhile p) := by
  intro c hc
  have h := List.head?_dropWhile_not p l
  rw [hc] at h
  exact h

theorem runs_nil (p : Char → Bool) : runs p [] = [] := rfl

theorem runs_cons_neg {p : Char → Bool} {c : Char} (cs : List Char)
    (hp : p c = false) : runs p (c :: cs) = runs p cs := by
  simp [runs, runsAux, hp]

theorem runsAux_ne_nil (p : Char → Bool) :
    ∀ (l cur : List Char), cur ≠ [] →
      runsAux p cur l = (cur.reverse ++ l.takeWhile p) :: runs p (l.dropWhile p)
  | [], cur, h => by simp [runsAux, runs, h]
  | c :: cs, cur, h => by
    by_cases hp : p c = true
    · have := runsAux_ne_nil p cs (c :: cur) (by simp)
      simp only [runsAux, hp, if_true, this, List.takeWhile_cons, List.dropWhile_cons,
        List.reverse_cons]
      simp [List.append_assoc]
    · have hp' : p c = false := by simpa using hp
      have h1 : runsAux p cur (c :: cs) = cur.reverse :: runsAux p [] cs := by
        simp [runsAux, hp', h]
      have h2 : runs p (c :: cs) = runsAux p [] cs := by
        simp [runs, runsAux, hp']
      have h3 : (c :: cs).takeWhile p = [] := by simp [List.takeWhile_cons, hp']
      have h4 : (c :: cs).dropWhile p = c :: cs := by simp [List.dropWhile_cons, hp']
      rw [h1, h3, h4, List.append_nil, h2]

theorem runs_cons_pos {p : Char → Bool} {c : Char} (cs : List Char)
    (hp : p c = true) :
    runs p (c :: cs) =
      (c :: cs.takeWhile p) :: runs p (cs.dropWhile p) := by
  have h1 : runs p (c :: cs) = runsAux p [c] cs := by simp [runs, runsAux, hp]
  rw [h1, runsAux_ne_nil p cs [c] (by simp)]
  rfl

theorem maxRun_cons_neg {p : Char → Bool} {c : Char} {cs w : List Char}
    (hp : p c = false) : MaxRun p (c :: cs) w ↔ MaxRun p cs w := by
  constructor
  · rintro ⟨hw, hall, pre, post, heq, hpre, hpost⟩
    cases pre with
    | nil =>
      exfalso
      cases w with
      | nil => exact hw rfl
      | cons x xs =>
        have hx : x = c := by simpa using congrArg List.head? heq.symm
        have := hall x (by simp)
        rw [hx] at this
        rw [this] at hp
        exact absurd hp (by decide)
    | cons d pre₀ =>
      have hd : d = c := by simpa using congrArg List.head? heq.symm
      have hcs : cs = pre₀ ++ w ++ post := by
        have := congrArg List.tail heq
        simpa using this
      refine ⟨hw, hall, pre₀, post, hcs, ?_, hpost⟩
      intro e he
      apply hpre
      cases pre₀ with
      | nil => exact absurd he (by simp)
      | cons x xs => simpa using he
  · rintro ⟨hw, hall, pre, post, heq, hpre, hpost⟩
    refine ⟨hw, hall, c :: pre, post, by simp [heq], ?_, hpost⟩
    intro e he
    cases pre with
    | nil =>
      have hec : c = e := by simpa using he
      rw [← hec]
      exact hp
    | cons x xs =>
      apply hpre
      simpa using he

theorem maxRun_head {p : Char → Bool} {c : Char} {cs : List Char}
    (hp : p c = true) : MaxRun p (c :: cs) (c :: cs.takeWhile p) := by
  refine ⟨by simp, ?_, [], cs.dropWhile p, by simp, by simp [LastNot], ?_⟩
  · intro x hx
    rcases List.mem_cons.mp hx with h | h
    · rw [h]; exact hp
    · exact List.mem_takeWhile_imp h
  · exact headNot_dropWhile p cs

theorem maxRun_of_maxRun_dropWhile {p : Char → Bool} {c : Char} {cs w : List Char}
    (hp : p c = true) (h : MaxRun p (cs.dropWhile p) w) : MaxRun p (c :: cs) w := by
  obtain ⟨hw, hall, pre, post, heq, hpre, hpost⟩ := h
  have hpre_ne : pre ≠ [] := by
    intro hnil
    rw [hnil] at heq
    simp only [List.nil_append] at heq
    cases w with
    | nil => exact hw rfl
    | cons x xs =>
      have hx : (cs.dropWhile p).head? = some x := by rw [heq]; rfl
      have := headNot_dropWhile p cs x hx
      have h2 := hall x (by simp)
      rw [h2] at this
      exact Bool.true_eq_false.mp this |>.elim
  refine ⟨hw, hall, c :: cs.takeWhile p ++ pre, post, ?_, ?_, hpost⟩
  · have : cs = cs.takeWhile p ++ cs.dropWhile p := (List.takeWhile_append_dropWhile p cs).symm
    calc c :: cs = c :: (cs.takeWhile p ++ (pre ++ w ++ post)) := by rw [← heq, ← this]
    _ = (c :: cs.takeWhile p ++ pre) ++ w ++ post := by simp [List.append_assoc]
  · intro e he
    apply hpre
    rw [List.getLast?_append_of_ne_nil _ hpre_ne] at he
    exact he

theorem maxRun_cons_pos {p : Char → Bool} {c : Char} {cs w : List Char}
    (hp : p c = true) :
    MaxRun p (c :: cs) w ↔ w = c :: cs.takeWhile p ∨ MaxRun p (cs.dropWhile p) w := by
  constructor
  · rintro ⟨hw, hall, pre, post, heq, hpre, hpost⟩
    cases pre with
    | nil =>
      left
      simp only [List.nil_append] at heq
      cases w with
      | nil => exact absurd rfl hw
      | cons x xs =>
        have hx : x = c := by simpa using congrArg List.head? heq.symm
        subst hx
        have hcs : cs = xs ++ post := by simpa using congrArg List.tail heq
        have hxs : ∀ a ∈ xs, p a = true := fun a ha => hall a (by simp [ha])
        have htw : cs.takeWhile p = xs := by
          rw [hcs, List.takeWhile_append_of_pos hxs]
          cases post with
          | nil => simp
          | cons y ys =>
            have hy := hpost y (by simp)
            simp [List.takeWhile_cons, hy]
        rw [htw]
    | cons d pre₀ =>
      right
      have hd : d = c := by simpa using congrArg List.head? heq.symm
      subst hd
      have hcs : cs = pre₀ ++ w ++ post := by simpa using congrArg List.tail heq
      rcases List.eq_nil_or_concat pre₀ with hnil | ⟨q, k, hqk⟩
      · exfalso
        have : p d = false := hpre d (by simp [hnil])
        rw [hp] at this
        exact Bool.true_eq_false.mp this |>.elim
      · rw [List.concat_eq_append] at hqk
        have hk : p k = false := by
          apply hpre
          rw [hqk]
          rw [show d :: (q ++ [k]) = (d :: q) ++ [k] by simp]
          exact List.getLast?_concat _
        have hcs' : cs = q ++ [k] ++ (w ++ post) := by
          rw [hcs, hqk]; simp [List.append_assoc]
        set u := (q ++ [k]).dropWhile p with hu
        have hu_last : ∃ z, u = z ++ [k] := by
          rw [hu, List.dropWhile_append]
          by_cases hq : (q.dropWhile p).isEmpty
          · exact ⟨[], by simp [hq, List.dropWhile_cons, hk]⟩
          · exact ⟨q.dropWhile p, by simp [hq]⟩
        obtain ⟨z, hz⟩ := hu_last
        have hu_ne : u ≠ [] := by rw [hz]; simp
        have hdrop : cs.dropWhile p = u ++ (w ++ post) := by
          rw [hcs', List.dropWhile_append]
          simp only [← hu]
          rw [if_neg (by simpa using hu_ne)]
        refine ⟨hw, hall, u, post, by rw [hdrop]; simp [List.append_assoc], ?_, hpost⟩
        intro e he
        rw [hz, List.getLast?_concat] at he
        have hke : k = e := by simpa using he
        rw [← hke]
        exact hk
  · rintro (rfl | h)
    · exact maxRun_head hp
    · exact maxRun_of_maxRun_dropWhile hp h

theorem length_dropWhile_le (p : Char → Bool) (l : List Char) :
    (l.dropWhile p).length ≤ l.length := by
  induction l with
  | nil => simp
  | cons c cs ih =>
    rw [List.dropWhile_cons]
    by_cases hp : p c = true
    · simp only [hp, if_true]
      exact le_trans ih (by simp)
    · simp [hp]

theorem mem_runs_iff_aux (p : Char → Bool) :
    ∀ (n : ℕ) (l : List Char), l.length ≤ n → ∀ w, (w ∈ runs p l ↔ MaxRun p l w) := by
  intro n
  induction n with
  | zero =>
    intro l hl w
    have : l = [] := List.length_eq_zero.mp (Nat.le_zero.mp hl)
    subst this
    rw [runs_nil]
    simp only [List.not_mem_nil, false_iff]
    rintro ⟨hw, _, pre, post, heq, _, _⟩
    have := congrArg List.length heq
    simp only [List.length_nil, List.length_append] at this
    have : w.length = 0 := by omega
    exact hw (List.length_eq_zero.mp this)
  | succ n ih =>
    intro l hl w
    cases l with
    | nil => exact ih [] (by simp) w
    | cons c cs =>
      by_cases hp : p c = true
      · rw [runs_cons_pos cs hp, maxRun_cons_pos hp]
        have hlen : (cs.dropWhile p).length ≤ n :=
          le_trans (length_dropWhile_le p cs) (by simpa using hl)
        rw [List.mem_cons, ih _ hlen w]
      · have hp' : p c = false := by simpa using hp
        rw [runs_cons_neg cs hp', maxRun_cons_neg hp']
        exact ih cs (by simpa using hl) w

theorem mem_runs_iff (p : Char → Bool) (l w : List Char) :
    w ∈ runs p l ↔ MaxRun p l w :=
  mem_runs_iff_aux p l.length l (le_refl _) w

/-- The spec-side description of a token of the tokenizer, corrected for
the word-boundary semantics of the regex: a maximal run of word
characters in the lower-cased text that consists solely of ASCII letters
and has length at least 2. -/
def IsToken (text w : List Char) : Prop :=
  2 ≤ w.length ∧ (∀ c ∈ w, isAsciiAlpha c = true) ∧
  MaxRun isWordChar (text.map pyLower) w

theorem isWordChar_of_isAsciiAlpha {c : Char} (h : isAsciiAlpha c = true) :
    isWordChar c = true := by
  unfold isWordChar
  rw [h]
  rfl

/-- C2 (amended): a word is produced by the tokenizer iff it is a maximal
run of word characters (`[a-zA-Z0-9_]`) of the lower-cased text that
consists entirely of ASCII alphabetic characters and has length at
least 2.  In particular an alphabetic run adjacent to a digit or an
underscore (such as `python` inside `python3`) is not extracted, because
the position between a letter and a digit is not a word boundary. -/
theorem mem_tokenize_iff (text w : List Char) :
    w ∈ tokenize text ↔ IsToken text w := by
  unfold tokenize IsToken
  rw [List.mem_filter, mem_runs_iff]
  constructor
  · rintro ⟨hrun, hcond⟩
    have h2 := (Bool.and_eq_true _ _).mp hcond
    refine ⟨by simpa using h2.1, ?_, hrun⟩
    intro c hc
    exact (List.all_eq_true.mp h2.2) c hc
  · rintro ⟨hlen, halpha, hrun⟩
    refine ⟨hrun, ?_⟩
    rw [Bool.and_eq_true]
    exact ⟨by simpa using hlen, List.all_eq_true.mpr halpha⟩

/-- C2 counterexample: the claim predicts that the alphabetic run
`python` adjacent to the digit in `python3` is still extracted; in fact
the tokenizer extracts nothing at all from `python3`. -/
theorem tokenize_python3 :
    tokenize "python3".data = [] ∧ "python".data ∉ tokenize "python3".data := by
  constructor
  · decide
  · decide

/-! ## Sorting and truncation of the response lists -/

theorem msort_sorted (m : Multiset String) : List.Sorted strLe (msort m) :=
  Quot.inductionOn m (fun l => List.sorted_insertionSort _ l)

theorem msort_coe (m : Multiset String) : ((msort m : List String) : Multiset String) = m :=
  Quot.inductionOn m (fun l => Multiset.coe_eq_coe.mpr (List.perm_insertionSort _ l))

theorem sortedList_sorted (s : Finset String) : List.Sorted strLe (sortedList s) :=
  msort_sorted s.val

theorem mem_sortedList {s : Finset String} {x : String} :
    x ∈ sortedList s ↔ x ∈ s := by
  have := msort_coe s.val
  constructor
  · intro hx
    have : x ∈ ((msort s.val : List String) : Multiset String) := Multiset.mem_coe.mpr hx
    rw [msort_coe] at this
    exact this
  · intro hx
    have hx' : x ∈ s.val := hx
    rw [← msort_coe s.val] at hx'
    exact Multiset.mem_coe.mp hx'

theorem sortedList_length (s : Finset String) :
    (sortedList s).length = s.card := by
  have h := msort_coe s.val
  have := congrArg Multiset.card h
  rw [Multiset.coe_card] at this
  exact this

theorem sortedList_take_sorted (s : Finset String) (n : ℕ) :
    List.Sorted strLe ((sortedList s).take n) :=
  List.Pairwise.sublist (List.take_sublist n _) (sortedList_sorted s)

theorem sortedList_take_length (s : Finset String) (n : ℕ) :
    ((sortedList s).take n).length = min n s.card := by
  rw [List.length_take, sortedList_length]

theorem sortedList_take_mem {s : Finset String} {n : ℕ} {x : String}
    (hx : x ∈ (sortedList s).take n) : x ∈ s :=
  mem_sortedList.mp (List.mem_of_mem_take hx)

theorem sortedList_nodup (s : Finset String) : (sortedList s).Nodup := by
  have h : s.val.Nodup := s.nodup
  rw [← msort_coe s.val] at h
  exact Multiset.coe_nodup.mp h

theorem sortedList_take_nodup (s : Finset String) (n : ℕ) :
    ((sortedList s).take n).Nodup :=
  List.Nodup.sublist (List.take_sublist n _) (sortedList_nodup s)

theorem sortedList_take_smallest {s : Finset String} {n : ℕ} {x y : String}
    (hx : x ∈ (sortedList s).take n) (hy : y ∈ s)
    (hyn : y ∉ (sortedList s).take n) : strLe x y := by
  have hy' : y ∈ sortedList s := mem_sortedList.mpr hy
  have hsplit : (sortedList s).take n ++ (sortedList s).drop n = sortedList s :=
    List.take_append_drop n _
  have hy'' : y ∈ (sortedList s).take n ++ (sortedList s).drop n := by
    rw [hsplit]; exact hy'
  rcases List.mem_append.mp hy'' with h | h
  · exact absurd h hyn
  · exact (sortedList_sorted s).rel_of_mem_take_of_mem_drop hx h

/-- Specification of the truncated response lists: sorted, duplicate-free,
of length `min cap card`, drawn from the corresponding set, and containing
only elements not exceeding any excluded element of the set.  Sortedness,
duplicate-freedom, the length, membership and the domination clause
together determine the list uniquely: it is exactly the lexicographically
first `min cap card` elements of the set. -/
def TruncationSpec (matched missing : Finset String)
    (mk mi : List String) : Prop :=
  List.Sorted strLe mk ∧ List.Sorted strLe mi ∧
  mk.Nodup ∧ mi.Nodup ∧
  mk.length = min 50 matched.card ∧ mi.length = min 30 missing.card ∧
  (∀ x ∈ mk, x ∈ matched) ∧ (∀ x ∈ mi, x ∈ missing) ∧
  (∀ x ∈ mk, ∀ y ∈ matched, y ∉ mk → strLe x y) ∧
  (∀ x ∈ mi, ∀ y ∈ missing, y ∉ mi → strLe x y)

theorem truncationSpec_sortedList (matched missing : Finset String) :
    TruncationSpec matched missing
      ((sortedList matched).take 50) ((sortedList missing).take 30) :=
  ⟨sortedList_take_sorted matched 50, sortedList_take_sorted missing 30,
    sortedList_take_nodup matched 50, sortedList_take_nodup missing 30,
    sortedList_take_length matched 50, sortedList_take_length missing 30,
    fun _ hx => sortedList_take_mem hx, fun _ hx => sortedList_take_mem hx,
    fun _ hx _ hy hyn => sortedList_take_smallest hx hy hyn,
    fun _ hx _ hy hyn => sortedList_take_smallest hx hy hyn⟩

/-- C7: whenever `analyze_text` returns a response, its
`matched_keywords` and `missing_keywords` are lexicographically sorted
lists truncated to at most 50 and 30 entries, and each is exactly the
lexicographically smallest such selection from the matched (resp.
missing) keyword set; in particular, when the matched set has more than
50 elements, `matched_keywords` has exactly 50 elements and every
excluded matched keyword is lexicographically larger than every included
one. -/
theorem analyze_text_truncation (rt jd : String) (r : AnalysisResult)
    (h : analyze_text rt jd = Except.ok r) :
    TruncationSpec
      (calculate_ats_score (extract_keywords rt) (extract_keywords jd)).matched
      (calculate_ats_score (extract_keywords rt) (extract_keywords jd)).missing
      r.matched_keywords r.missing_keywords := by
  unfold analyze_text at h
  by_cases h1 : pyStrip rt.data = []
  · rw [if_pos h1] at h
    exact absurd h (by simp)
  · rw [if_neg h1] at h
    by_cases h2 : pyStrip jd.data = []
    · rw [if_pos h2] at h
      exact absurd h (by simp)
    · rw [if_neg h2] at h
      simp only [Except.ok.injEq] at h
      subst h
      exact truncationSpec_sortedList _ _

theorem pyRound2_intCast (n : ℤ) : pyRound2 (n : ℚ) = (n : ℚ) := by
  unfold pyRound2
  have h : (n : ℚ) * 100 = ((n * 100 : ℤ) : ℚ) := by push_cast; ring
  rw [h, roundHalfEven_intCast]
  push_cast
  rw [mul_div_assoc]
  norm_num

theorem calculate_ats_score_eval :
    calculate_ats_score {"python"} {"python", "java"} =
      { score := 50, matched := {"python"}, missing := {"java"} } := by
  unfold calculate_ats_score
  rw [if_neg (by decide)]
  have hm : ({"python"} : Finset String) ∩ {"python", "java"} = {"python"} := by
    decide
  have hmi : ({"python", "java"} : Finset String) \ {"python"} = {"java"} := by
    decide
  have hc1 : (({"python"} : Finset String)).card = 1 := by decide
  have hc2 : (({"python", "java"} : Finset String)).card = 2 := by decide
  simp only [hm, hmi, hc1, hc2]
  have hsc : ((1 : ℕ) : ℚ) / ((2 : ℕ) : ℚ) * 100 = ((50 : ℤ) : ℚ) := by norm_num
  rw [hsc, pyRound2_intCast]
  norm_num

theorem get_score_label_fifty : get_score_label 50 = "Fair Match" := by
  unfold get_score_label
  rw [if_neg (by norm_num), if_neg (by norm_num), if_pos (by norm_num)]

set_option maxRecDepth 40000 in
theorem analyze_text_eval :
    analyze_text "python" "python java" =
      Except.ok
        { score := 50, score_label := "Fair Match",
          matched_keywords := ["python"], missing_keywords := ["java"],
          total_jd_keywords := 2, total_matched := 1 } := by
  have hr : extract_keywords "python" = {"python"} := by decide
  have hj : extract_keywords "python java" = {"python", "java"} := by decide
  unfold analyze_text
  rw [if_neg (by decide), if_neg (by decide)]
  simp only [hr, hj, calculate_ats_score_eval]
  have h1 : (sortedList {"python"}).take 50 = ["python"] := by decide
  have h2 : (sortedList {"java"}).take 30 = ["java"] := by decide
  have h3 : (({"python", "java"} : Finset String)).card = 2 := by decide
  have h4 : (({"python"} : Finset String)).card = 1 := by decide
  simp only [h1, h2, h3, h4, get_score_label_fifty]

instance : DecidableEq (Except String AnalysisResult) :=
  fun x y =>
    match x, y with
    | .ok a, .ok b =>
      if h : a = b then isTrue (by rw [h]) else isFalse (by simp [h])
    | .error a, .error b =>
      if h : a = b then isTrue (by rw [h]) else isFalse (by simp [h])
    | .ok _, .error _ => isFalse (by simp)
    | .error _, .ok _ => isFalse (by simp)

set_option maxRecDepth 20000 in
/-- C7 witness: the truncation specification holds for the concrete
response to resume "python" against job description "python java". -/
theorem analyze_text_truncation_witness :
    (analyze_text "python" "python java" =
      Except.ok
        { score := 50, score_label := "Fair Match",
          matched_keywords := ["python"], missing_keywords := ["java"],
          total_jd_keywords := 2, total_matched := 1 }) ∧
    TruncationSpec
      (calculate_ats_score (extract_keywords "python")
        (extract_keywords "python java")).matched
      (calculate_ats_score (extract_keywords "python")
        (extract_keywords "python java")).missing
      ["python"] ["java"] :=
  ⟨analyze_text_eval,
    analyze_text_truncation "python" "python java"
      { score := 50, score_label := "Fair Match",
        matched_keywords := ["python"], missing_keywords := ["java"],
        total_jd_keywords := 2, total_matched := 1 } analyze_text_eval⟩

/-! ## Validation of blank inputs -/

theorem pyStrip_eq_nil_iff {l : List Char} :
    pyStrip l = [] ↔ ∀ c ∈ l, pyIsSpace c = true := by
  unfold pyStrip
  constructor
  · intro h
    have h1 : (l.dropWhile pyIsSpace).reverse.dropWhile pyIsSpace = [] := by
      have := congrArg List.reverse h
      simpa using this
    have h2 : ∀ c ∈ (l.dropWhile pyIsSpace).reverse, pyIsSpace c = true := by
      intro c hc
      exact List.dropWhile_eq_nil_iff.mp h1 c hc
    have h3 : ∀ c ∈ l.dropWhile pyIsSpace, pyIsSpace c = true := by
      intro c hc
      exact h2 c (List.mem_reverse.mpr hc)
    intro c hc
    rw [← List.takeWhile_append_dropWhile pyIsSpace l] at hc
    rcases List.mem_append.mp hc with h | h
    · exact List.mem_takeWhile_imp h
    · exact h3 c h
  · intro h
    have h1 : l.dropWhile pyIsSpace = [] := List.dropWhile_eq_nil_iff.mpr h
    rw [h1]
    rfl

/-- C8: any request to the text-analysis operation in which the resume
text or the job-description text is empty or consists only of whitespace
is rejected with a validation error; no score is produced for it. -/
theorem analyze_text_rejects_blank (rt jd : String)
    (h : (∀ c ∈ rt.data, pyIsSpace c = true) ∨ (∀ c ∈ jd.data, pyIsSpace c = true)) :
    ∃ e, analyze_text rt jd = Except.error e := by
  unfold analyze_text
  rcases h with h | h
  · rw [if_pos (pyStrip_eq_nil_iff.mpr h)]
    exact ⟨_, rfl⟩
  · by_cases h1 : pyStrip rt.data = []
    · rw [if_pos h1]
      exact ⟨_, rfl⟩
    · rw [if_neg h1, if_pos (pyStrip_eq_nil_iff.mpr h)]
      exact ⟨_, rfl⟩

/-- C8 witness: the whitespace-only resume text "  " (and the empty job
description in the second component) are rejected. -/
theorem analyze_text_rejects_blank_witness :
    ((∀ c ∈ ("  " : String).data, pyIsSpace c = true) ∧
      ∃ e, analyze_text "  " "python" = Except.error e) ∧
    ((∀ c ∈ ("" : String).data, pyIsSpace c = true) ∧
      ∃ e, analyze_text "python" "" = Except.error e) :=
  ⟨⟨by decide, analyze_text_rejects_blank "  " "python" (Or.inl (by decide))⟩,
    ⟨by decide, analyze_text_rejects_blank "python" "" (Or.inr (by decide))⟩⟩

end ATS
